import Mathlib

/-!
Verification of the formatting/conversion and text-parsing layer of the
simple-solutions repository (src/utils.py and src/file_utils.py).

Strings are modelled as `List Char`.  Each Python function is translated
into an executable Lean definition; fallible Python code (code that can
raise ValueError / IndexError) is modelled with `Option`.  Numeric
magnitudes that Python holds in floats are modelled as exact rationals;
this is noted at each definition concerned.
-/

set_option maxRecDepth 8000

/-! ## Decimal digits and Python `str`/`int` on numbers -/

/-- The character for one decimal digit, as produced by Python string
formatting of integers (digits beyond 9 never occur; `*` is a dummy). -/
def digitChar : ℕ → Char
  | 0 => '0' | 1 => '1' | 2 => '2' | 3 => '3' | 4 => '4'
  | 5 => '5' | 6 => '6' | 7 => '7' | 8 => '8' | 9 => '9'
  | _ => '*'

/-- Numeric value of a digit character. -/
def digitVal (c : Char) : ℕ := c.toNat - 48

/-- Recogniser for the ASCII digits `0`..`9`. -/
def isDigitChar (c : Char) : Bool := 48 ≤ c.toNat && c.toNat ≤ 57

/-- Fuel-driven decimal rendering of a natural number, most significant
digit first.  The fuel only bounds the recursion depth; any fuel larger
than the argument gives Python's `str` of the number. -/
def natReprAux : ℕ → ℕ → List Char
  | 0, _ => []
  | fuel + 1, n =>
    if n < 10 then [digitChar n] else natReprAux fuel (n / 10) ++ [digitChar (n % 10)]

/-- Python `str(n)` for a natural number `n`, as a list of characters. -/
def natRepr (n : ℕ) : List Char := natReprAux (n + 1) n

/-- Python's `f-string` zero padding to width 2 (the `{x:02}` format):
prepend `0` characters until the length is at least 2. -/
def pad2 (s : List Char) : List Char := List.replicate (2 - s.length) '0' ++ s

/-- Python `int(s)` restricted to an unsigned run of decimal digits:
`None` when the string is empty or has a non-digit character. -/
def parseNat (s : List Char) : Option ℕ :=
  if !s.isEmpty && s.all isDigitChar then
    some (s.foldl (fun a c => a * 10 + digitVal c) 0)
  else none

/-- Python `int(s)` on an optionally signed decimal literal.  (Python also
tolerates surrounding whitespace and interior underscores; those never
arise in this development and are not modelled.) -/
def parsePyInt (s : List Char) : Option ℤ :=
  match s with
  | [] => none
  | c :: rest =>
    if c = '-' then (parseNat rest).map (fun n => -(n : ℤ))
    else if c = '+' then (parseNat rest).map (fun n => (n : ℤ))
    else (parseNat (c :: rest)).map (fun n => (n : ℤ))

theorem natReprAux_irrel : ∀ f1 f2 n, n < f1 → n < f2 → natReprAux f1 n = natReprAux f2 n := by
  intro f1
  induction f1 with
  | zero => intro f2 n h1 _; omega
  | succ f ih =>
    intro f2 n h1 h2
    cases f2 with
    | zero => omega
    | succ g =>
      simp only [natReprAux]
      by_cases h : n < 10
      · simp [h]
      · simp only [h, if_false]
        have hd : n / 10 < n := Nat.div_lt_self (by omega) (by omega)
        rw [ih g (n / 10) (by omega) (by omega)]

theorem natRepr_lt10 {n : ℕ} (h : n < 10) : natRepr n = [digitChar n] := by
  simp [natRepr, natReprAux, h]

theorem natRepr_ge10 {n : ℕ} (h : 10 ≤ n) :
    natRepr n = natRepr (n / 10) ++ [digitChar (n % 10)] := by
  have hd : n / 10 < n := Nat.div_lt_self (by omega) (by omega)
  rw [natRepr, natReprAux]
  simp only [Nat.not_lt.mpr h, if_false]
  rw [natReprAux_irrel n (n / 10 + 1) (n / 10) (by omega) (by omega)]
  rfl

theorem digitChar_isDigit {d : ℕ} (h : d < 10) : isDigitChar (digitChar d) = true := by
  interval_cases d <;> decide

theorem digitVal_digitChar {d : ℕ} (h : d < 10) : digitVal (digitChar d) = d := by
  interval_cases d <;> decide

theorem natRepr_all_digits (n : ℕ) : (natRepr n).all isDigitChar = true := by
  induction n using Nat.strong_induction_on with
  | _ n ih =>
    by_cases h : n < 10
    · rw [natRepr_lt10 h]
      simp [digitChar_isDigit h]
    · rw [natRepr_ge10 (by omega)]
      have hd : n / 10 < n := Nat.div_lt_self (by omega) (by omega)
      have h1 := ih (n / 10) hd
      have h2 : isDigitChar (digitChar (n % 10)) = true :=
        digitChar_isDigit (Nat.mod_lt _ (by omega))
      simp [List.all_append, h1, h2]

theorem natRepr_ne_nil (n : ℕ) : natRepr n ≠ [] := by
  by_cases h : n < 10
  · rw [natRepr_lt10 h]; simp
  · rw [natRepr_ge10 (by omega)]; simp

theorem foldl_natRepr (n : ℕ) : ∀ a : ℕ,
    (natRepr n).foldl (fun x c => x * 10 + digitVal c) a = a * 10 ^ (natRepr n).length + n := by
  induction n using Nat.strong_induction_on with
  | _ n ih =>
    intro a
    by_cases h : n < 10
    · rw [natRepr_lt10 h]
      simp [List.foldl, digitVal_digitChar h]
    · rw [natRepr_ge10 (by omega)]
      have hd : n / 10 < n := Nat.div_lt_self (by omega) (by omega)
      rw [List.foldl_append]
      rw [ih (n / 10) hd a]
      simp only [List.foldl, digitVal_digitChar (Nat.mod_lt n (by omega) : n % 10 < 10)]
      rw [List.length_append]
      simp only [List.length_singleton]
      ring_nf
      omega

theorem parseNat_natRepr (n : ℕ) : parseNat (natRepr n) = some n := by
  unfold parseNat
  rw [if_pos]
  · rw [foldl_natRepr n 0]; simp
  · have h1 := natRepr_all_digits n
    have h2 := natRepr_ne_nil n
    simp [h1, List.isEmpty_iff, h2]

theorem natRepr_injective : Function.Injective natRepr := by
  intro a b h
  have ha := parseNat_natRepr a
  have hb := parseNat_natRepr b
  rw [h, hb] at ha
  exact (Option.some_injective _ ha).symm

/-! ## Python `str.split(sep)` for a fixed non-empty separator -/

/-- Fuel-driven worker for Python `str.split(sep)` with a non-empty
separator: returns the first segment and the list of the remaining
segments.  Scans left to right; whenever the separator is a prefix of the
remaining input it cuts there (leftmost, non-overlapping matches, exactly
as Python's `str.split`).  Any fuel at least the length of the input gives
the real value; the fuel-exhausted branch is unreachable then. -/
def splitSeqAux (sep : List Char) : ℕ → List Char → List Char × List (List Char)
  | _, [] => ([], [])
  | 0, l => (l, [])
  | fuel + 1, c :: r =>
    if sep.isPrefixOf (c :: r) then
      let p := splitSeqAux sep fuel ((c :: r).drop sep.length)
      ([], p.1 :: p.2)
    else
      let p := splitSeqAux sep fuel r
      (c :: p.1, p.2)

/-- Python `s.split(sep)` for a non-empty separator `sep`. -/
def splitSeq (sep : List Char) (l : List Char) : List (List Char) :=
  ((splitSeqAux sep l.length l).1) :: (splitSeqAux sep l.length l).2

/-- Python `sep.join(parts)`: interleave the separator between the parts. -/
def joinSeq (sep : List Char) : List (List Char) → List Char
  | [] => []
  | [x] => x
  | x :: y :: t => x ++ sep ++ joinSeq sep (y :: t)

/-- Python `sep in s` (substring occurrence test) for a fixed separator. -/
def containsSeq (sep : List Char) : List Char → Bool
  | [] => sep.isEmpty
  | c :: r => sep.isPrefixOf (c :: r) || containsSeq sep r

theorem sep_length_pos {sep : List Char} (hsep : sep ≠ []) : 1 ≤ sep.length := by
  cases sep with
  | nil => exact absurd rfl hsep
  | cons a b => simp

theorem splitSeqAux_irrel (sep : List Char) (hsep : sep ≠ []) :
    ∀ f1 f2 l, l.length ≤ f1 → l.length ≤ f2 →
      splitSeqAux sep f1 l = splitSeqAux sep f2 l := by
  intro f1
  induction f1 with
  | zero =>
    intro f2 l h1 _
    have : l = [] := by
      cases l with
      | nil => rfl
      | cons c r => simp at h1
    subst this
    cases f2 <;> rfl
  | succ f ih =>
    intro f2 l h1 h2
    cases l with
    | nil => cases f2 <;> rfl
    | cons c r =>
      cases f2 with
      | zero => simp at h2
      | succ g =>
        have hs := sep_length_pos hsep
        simp only [List.length_cons] at h1 h2
        simp only [splitSeqAux]
        by_cases hp : sep.isPrefixOf (c :: r) = true
        · simp only [hp, if_true]
          have hlen : ((c :: r).drop sep.length).length ≤ f := by
            simp only [List.length_drop, List.length_cons]
            omega
          have hlen2 : ((c :: r).drop sep.length).length ≤ g := by
            simp only [List.length_drop, List.length_cons]
            omega
          rw [ih g _ hlen hlen2]
        · rw [Bool.not_eq_true] at hp
          simp only [hp, Bool.false_eq_true, if_false]
          rw [ih g r (by omega) (by omega)]

theorem splitSeq_nil (sep : List Char) : splitSeq sep [] = [[]] := rfl

theorem splitSeq_cut {sep : List Char} (hsep : sep ≠ []) {l : List Char}
    (h : sep.isPrefixOf l = true) :
    splitSeq sep l = [] :: splitSeq sep (l.drop sep.length) := by
  cases l with
  | nil =>
    exfalso
    cases sep with
    | nil => exact hsep rfl
    | cons a b => simp [List.isPrefixOf] at h
  | cons c r =>
    have hs := sep_length_pos hsep
    unfold splitSeq
    simp only [List.length_cons, splitSeqAux, h, if_true]
    rw [splitSeqAux_irrel sep hsep r.length ((c :: r).drop sep.length).length
        ((c :: r).drop sep.length)
        (by simp only [List.length_drop, List.length_cons]; omega) (le_refl _)]

theorem splitSeq_keep {sep : List Char} {c : Char} {r : List Char}
    (h : sep.isPrefixOf (c :: r) = false) :
    splitSeq sep (c :: r) =
      (c :: (splitSeq sep r).headI) :: (splitSeq sep r).tail := by
  unfold splitSeq
  simp only [List.length_cons, splitSeqAux, h, Bool.false_eq_true, if_false]
  rfl

theorem splitSeq_ne_nil (sep l : List Char) : splitSeq sep l ≠ [] := by
  unfold splitSeq
  simp

theorem joinSeq_cons_cons (sep x y : List Char) (t : List (List Char)) :
    joinSeq sep (x :: y :: t) = x ++ sep ++ joinSeq sep (y :: t) := rfl

theorem joinSeq_cons_head (sep : List Char) (c : Char) (h : List Char)
    (t : List (List Char)) :
    joinSeq sep ((c :: h) :: t) = c :: joinSeq sep (h :: t) := by
  cases t with
  | nil => rfl
  | cons y t2 => simp [joinSeq_cons_cons]

/-- Splitting then joining is the identity: `splitSeq` cuts the input into
segments whose `sep`-interleaved concatenation is the input again. -/
theorem joinSeq_splitSeq {sep : List Char} (hsep : sep ≠ []) :
    ∀ l, joinSeq sep (splitSeq sep l) = l := by
  suffices hgen : ∀ n l, l.length = n → joinSeq sep (splitSeq sep l) = l by
    intro l; exact hgen l.length l rfl
  intro n
  induction n using Nat.strong_induction_on with
  | _ n ih =>
    intro l hl
    cases l with
    | nil => rfl
    | cons c r =>
      by_cases hp : sep.isPrefixOf (c :: r) = true
      · rw [splitSeq_cut hsep hp]
        obtain ⟨t, ht⟩ : ∃ t, sep ++ t = c :: r := by
          have := (List.isPrefixOf_iff_prefix).mp hp
          exact this
        have hdrop : (c :: r).drop sep.length = t := by
          rw [← ht, List.drop_left]
        have hlt : ((c :: r).drop sep.length).length < (c :: r).length := by
          have hs := sep_length_pos hsep
          simp only [List.length_drop, List.length_cons]
          omega
        have hrec := ih ((c :: r).drop sep.length).length (by omega)
            ((c :: r).drop sep.length) rfl
        obtain ⟨h2, t2, hst⟩ : ∃ h2 t2, splitSeq sep ((c :: r).drop sep.length) = h2 :: t2 := by
          cases hsp : splitSeq sep ((c :: r).drop sep.length) with
          | nil => exact absurd hsp (splitSeq_ne_nil _ _)
          | cons a b => exact ⟨a, b, rfl⟩
        rw [hst]
        rw [joinSeq_cons_cons]
        rw [hst] at hrec
        rw [hrec, hdrop, ← ht]
        simp
      · rw [Bool.not_eq_true] at hp
        rw [splitSeq_keep hp]
        obtain ⟨h2, t2, hst⟩ : ∃ h2 t2, splitSeq sep r = h2 :: t2 := by
          cases hsp : splitSeq sep r with
          | nil => exact absurd hsp (splitSeq_ne_nil _ _)
          | cons a b => exact ⟨a, b, rfl⟩
        have hrec := ih r.length (by simp [← hl]) r rfl
        rw [hst] at hrec ⊢
        simp only [List.headI, List.tail]
        rw [joinSeq_cons_head, hrec]

/-- No segment produced by `splitSeq` contains the separator. -/
theorem splitSeq_no_sep {sep : List Char} (hsep : sep ≠ []) :
    ∀ l, ∀ p ∈ splitSeq sep l, containsSeq sep p = false := by
  suffices hgen : ∀ n l, l.length = n → ∀ p ∈ splitSeq sep l, containsSeq sep p = false by
    intro l; exact hgen l.length l rfl
  intro n
  induction n using Nat.strong_induction_on with
  | _ n ih =>
    intro l hl
    cases l with
    | nil =>
      intro p hp
      rw [splitSeq_nil] at hp
      simp at hp
      subst hp
      simp [containsSeq, List.isEmpty_iff, hsep]
    | cons c r =>
      intro p hp
      by_cases hpre : sep.isPrefixOf (c :: r) = true
      · rw [splitSeq_cut hsep hpre] at hp
        have hlt : ((c :: r).drop sep.length).length < (c :: r).length := by
          have hs := sep_length_pos hsep
          simp only [List.length_drop, List.length_cons]
          omega
        have hsuff : (c :: r).drop sep.length <:+ (c :: r) := List.drop_suffix _ _
        rcases List.mem_cons.mp hp with h | h
        · subst h
          simp [containsSeq, List.isEmpty_iff, hsep]
        · exact ih ((c :: r).drop sep.length).length (by rw [← hl]; exact hlt) _ rfl p h
      · rw [Bool.not_eq_true] at hpre
        rw [splitSeq_keep hpre] at hp
        obtain ⟨h2, t2, hst⟩ : ∃ h2 t2, splitSeq sep r = h2 :: t2 := by
          cases hsp : splitSeq sep r with
          | nil => exact absurd hsp (splitSeq_ne_nil _ _)
          | cons a b => exact ⟨a, b, rfl⟩
        rw [hst] at hp
        simp only [List.headI, List.tail] at hp
        rcases List.mem_cons.mp hp with h | h
        · subst h
          have hh2 : containsSeq sep h2 = false :=
            ih r.length (by rw [← hl]; simp) r rfl h2 (by rw [hst]; exact List.mem_cons_self _ _)
          have hh2pre : h2 <+: r := by
            have hj := joinSeq_splitSeq hsep r
            rw [hst] at hj
            cases t2 with
            | nil => exact ⟨[], by simpa using hj⟩
            | cons y t3 =>
              rw [joinSeq_cons_cons] at hj
              exact ⟨sep ++ joinSeq sep (y :: t3), by simpa [List.append_assoc] using hj⟩
          show containsSeq sep (c :: h2) = false
          simp only [containsSeq, Bool.or_eq_false_iff]
          refine ⟨?_, hh2⟩
          by_contra hcon
          rw [Bool.not_eq_false] at hcon
          have h1 : sep <+: c :: h2 := List.isPrefixOf_iff_prefix.mp hcon
          have h2p : c :: h2 <+: c :: r := by
            obtain ⟨tt, htt⟩ := hh2pre
            exact ⟨tt, by rw [List.cons_append, htt]⟩
          have := h1.trans h2p
          rw [← List.isPrefixOf_iff_prefix] at this
          rw [this] at hpre
          exact Bool.noConfusion hpre
        · exact ih r.length (by rw [← hl]; simp) r rfl p (by rw [hst]; exact List.mem_cons_of_mem _ h)

/-- The separator occurs in the input exactly when splitting produces at
least two segments. -/
theorem containsSeq_iff_split {sep : List Char} (hsep : sep ≠ []) :
    ∀ l, containsSeq sep l = true ↔ 2 ≤ (splitSeq sep l).length := by
  suffices hgen : ∀ n l, l.length = n → (containsSeq sep l = true ↔ 2 ≤ (splitSeq sep l).length) by
    intro l; exact hgen l.length l rfl
  intro n
  induction n using Nat.strong_induction_on with
  | _ n ih =>
    intro l hl
    cases l with
    | nil =>
      rw [splitSeq_nil]
      simp [containsSeq, List.isEmpty_iff, hsep]
    | cons c r =>
      by_cases hpre : sep.isPrefixOf (c :: r) = true
      · rw [splitSeq_cut hsep hpre]
        obtain ⟨h2, t2, hst⟩ : ∃ h2 t2, splitSeq sep ((c :: r).drop sep.length) = h2 :: t2 := by
          cases hsp : splitSeq sep ((c :: r).drop sep.length) with
          | nil => exact absurd hsp (splitSeq_ne_nil _ _)
          | cons a b => exact ⟨a, b, rfl⟩
        rw [hst]
        simp [containsSeq, hpre]
      · rw [Bool.not_eq_true] at hpre
        rw [splitSeq_keep hpre]
        obtain ⟨h2, t2, hst⟩ : ∃ h2 t2, splitSeq sep r = h2 :: t2 := by
          cases hsp : splitSeq sep r with
          | nil => exact absurd hsp (splitSeq_ne_nil _ _)
          | cons a b => exact ⟨a, b, rfl⟩
        have hr := ih r.length (by rw [← hl]; simp) r rfl
        rw [hst] at hr ⊢
        simp only [containsSeq, hpre, Bool.false_or]
        simp only [List.length_cons] at hr ⊢
        simpa using hr

theorem singleton_isPrefixOf_cons (c x : Char) (r : List Char) :
    [c].isPrefixOf (x :: r) = (c == x) := by
  simp [List.isPrefixOf]

/-- Splitting on a single character absent from the input keeps it whole. -/
theorem splitChar_nosep {c : Char} : ∀ {a : List Char}, c ∉ a → splitSeq [c] a = [a] := by
  intro a
  induction a with
  | nil => intro _; rfl
  | cons x a2 ih =>
    intro h
    have hx : ¬(c = x) := by
      intro hcx
      exact h (by rw [hcx]; exact List.mem_cons_self _ _)
    have hpre : ([c]).isPrefixOf (x :: a2) = false := by
      rw [singleton_isPrefixOf_cons]
      exact beq_eq_false_iff_ne.mpr hx
    rw [splitSeq_keep hpre]
    rw [ih (fun hm => h (List.mem_cons_of_mem _ hm))]
    rfl

/-- Splitting on a single character: a character-free chunk followed by the
separator peels off as the first segment. -/
theorem splitChar_append {c : Char} : ∀ {a : List Char} (t : List Char), c ∉ a →
    splitSeq [c] (a ++ c :: t) = a :: splitSeq [c] t := by
  intro a
  induction a with
  | nil =>
    intro t _
    have hpre : ([c]).isPrefixOf (c :: t) = true := by
      rw [singleton_isPrefixOf_cons]
      exact beq_self_eq_true c
    rw [List.nil_append, splitSeq_cut (by simp) hpre]
    rfl
  | cons x a2 ih =>
    intro t h
    have hx : ¬(c = x) := by
      intro hcx
      exact h (by rw [hcx]; exact List.mem_cons_self _ _)
    have hpre : ([c]).isPrefixOf (x :: (a2 ++ c :: t)) = false := by
      rw [singleton_isPrefixOf_cons]
      exact beq_eq_false_iff_ne.mpr hx
    rw [List.cons_append, splitSeq_keep hpre]
    rw [ih t (fun hm => h (List.mem_cons_of_mem _ hm))]
    rfl

/-! ## Duration formatting (utils.py, seconds_to_formatted_time /
formatted_time_to_seconds) -/

/-- Embedding of `seconds_to_formatted_time` from src/utils.py for a
natural-number input: `hours = seconds // 3600`,
`minutes = (seconds % 3600) // 60`, `seconds = seconds % 60`, rendered as
`f"{hours:02}:{minutes:02}:{seconds:02}"`. -/
def seconds_to_formatted_time (n : ℕ) : List Char :=
  pad2 (natRepr (n / 3600)) ++ ':' :: (pad2 (natRepr (n % 3600 / 60)) ++ ':' :: pad2 (natRepr (n % 60)))

/-- Embedding of `formatted_time_to_seconds` from src/utils.py:
`hours, minutes, seconds = map(int, formatted_time.split(":"))` followed by
`hours * 3600 + minutes * 60 + seconds`.  Any failure of the unpacking
(not exactly three fields) or of an `int(...)` conversion raises in
Python and is modelled as `none`. -/
def formatted_time_to_seconds (s : List Char) : Option ℤ :=
  match splitSeq [':'] s with
  | [a, b, c] =>
    match parsePyInt a, parsePyInt b, parsePyInt c with
    | some h, some m, some sec => some (h * 3600 + m * 60 + sec)
    | _, _, _ => none
  | _ => none

theorem digitVal_zero_char : digitVal '0' = 0 := by decide

theorem foldl_digit_zeros (k : ℕ) :
    List.foldl (fun a c => a * 10 + digitVal c) 0 (List.replicate k '0') = 0 := by
  induction k with
  | zero => rfl
  | succ m ih => simpa [List.replicate_succ, digitVal_zero_char] using ih

theorem pad2_all_digits {s : List Char} (h : s.all isDigitChar = true) :
    (pad2 s).all isDigitChar = true := by
  simp only [pad2, List.all_append, h, Bool.and_true]
  rw [List.all_eq_true]
  intro x hx
  rw [List.eq_of_mem_replicate hx]
  decide

theorem pad2_ne_nil (s : List Char) : pad2 s ≠ [] := by
  intro hcon
  have := congrArg List.length hcon
  simp [pad2] at this
  obtain ⟨h1, h2⟩ := this
  subst h2
  simp at h1

theorem parseNat_pad2_natRepr (n : ℕ) : parseNat (pad2 (natRepr n)) = some n := by
  unfold parseNat
  rw [if_pos]
  · rw [pad2, List.foldl_append, foldl_digit_zeros, foldl_natRepr n 0]
    simp
  · have h1 := pad2_all_digits (natRepr_all_digits n)
    have h2 := pad2_ne_nil (natRepr n)
    simp [h1, List.isEmpty_iff, h2]

theorem parseNat_some_digits {s : List Char} {v : ℕ} (h : parseNat s = some v) :
    s ≠ [] ∧ s.all isDigitChar = true := by
  unfold parseNat at h
  by_cases hc : (!s.isEmpty && s.all isDigitChar) = true
  · simp only [Bool.and_eq_true, Bool.not_eq_true'] at hc
    exact ⟨by simpa [List.isEmpty_iff] using hc.1, hc.2⟩
  · rw [if_neg hc] at h
    exact absurd h (by simp)

theorem parsePyInt_of_digits {s : List Char} (hne : s ≠ []) (hd : s.all isDigitChar = true) :
    parsePyInt s = (parseNat s).map (fun n => (n : ℤ)) := by
  cases s with
  | nil => exact absurd rfl hne
  | cons c rest =>
    have hc : isDigitChar c = true := by
      simp [List.all_eq_true] at hd
      exact hd.1
    have hminus : ¬(c = '-') := by
      intro hcm; rw [hcm] at hc; exact Bool.noConfusion hc
    have hplus : ¬(c = '+') := by
      intro hcp; rw [hcp] at hc; exact Bool.noConfusion hc
    simp [parsePyInt, hminus, hplus]

theorem parsePyInt_pad2_natRepr (n : ℕ) : parsePyInt (pad2 (natRepr n)) = some (n : ℤ) := by
  rw [parsePyInt_of_digits (pad2_ne_nil _) (pad2_all_digits (natRepr_all_digits n))]
  rw [parseNat_pad2_natRepr]
  rfl

theorem colon_not_of_digits {s : List Char} (hd : s.all isDigitChar = true) : ':' ∉ s := by
  intro hmem
  rw [List.all_eq_true] at hd
  have := hd ':' hmem
  exact Bool.noConfusion this

theorem pad2_natRepr_no_colon (n : ℕ) : ':' ∉ pad2 (natRepr n) :=
  colon_not_of_digits (pad2_all_digits (natRepr_all_digits n))

/-- C1: for every non-negative integer number of seconds, formatting with
`seconds_to_formatted_time` and parsing back with
`formatted_time_to_seconds` returns the same number of seconds. -/
theorem c1_duration_roundtrip (n : ℕ) :
    formatted_time_to_seconds (seconds_to_formatted_time n) = some (n : ℤ) := by
  unfold seconds_to_formatted_time formatted_time_to_seconds
  rw [splitChar_append _ (pad2_natRepr_no_colon (n / 3600))]
  rw [splitChar_append _ (pad2_natRepr_no_colon (n % 3600 / 60))]
  rw [splitChar_nosep (pad2_natRepr_no_colon (n % 60))]
  simp only [parsePyInt_pad2_natRepr]
  congr 1
  push_cast
  omega

theorem pad2_length (s : List Char) : (pad2 s).length = max 2 s.length := by
  simp [pad2]
  omega

theorem natRepr_length_le2 {n : ℕ} (h : n < 100) : (natRepr n).length ≤ 2 := by
  by_cases h10 : n < 10
  · rw [natRepr_lt10 h10]; simp
  · rw [natRepr_ge10 (by omega)]
    have : n / 10 < 10 := by omega
    rw [natRepr_lt10 this]
    simp

/-- C7: `seconds_to_formatted_time` renders `hours:minutes:seconds` with
`hours = n div 3600`, `minutes = (n mod 3600) div 60`, `secs = n mod 60`,
each field a zero-padded digit string of length at least 2 (minutes and
seconds exactly 2, hours may be longer), and the given concrete examples
hold. -/
theorem c7_format_duration :
    (∀ n : ℕ, ∃ hs ms ss : List Char,
      seconds_to_formatted_time n = hs ++ ':' :: (ms ++ ':' :: ss) ∧
      parseNat hs = some (n / 3600) ∧
      parseNat ms = some (n % 3600 / 60) ∧
      parseNat ss = some (n % 60) ∧
      2 ≤ hs.length ∧ ms.length = 2 ∧ ss.length = 2 ∧
      hs.all isDigitChar = true ∧ ms.all isDigitChar = true ∧ ss.all isDigitChar = true) ∧
    seconds_to_formatted_time 0 = "00:00:00".toList ∧
    seconds_to_formatted_time 3661 = "01:01:01".toList ∧
    seconds_to_formatted_time 442800 = "123:00:00".toList := by
  refine ⟨?_, by decide, by decide, by decide⟩
  intro n
  refine ⟨pad2 (natRepr (n / 3600)), pad2 (natRepr (n % 3600 / 60)), pad2 (natRepr (n % 60)),
    rfl, parseNat_pad2_natRepr _, parseNat_pad2_natRepr _, parseNat_pad2_natRepr _,
    ?_, ?_, ?_, pad2_all_digits (natRepr_all_digits _), pad2_all_digits (natRepr_all_digits _),
    pad2_all_digits (natRepr_all_digits _)⟩
  · rw [pad2_length]; omega
  · rw [pad2_length]
    have : (natRepr (n % 3600 / 60)).length ≤ 2 := natRepr_length_le2 (by omega)
    omega
  · rw [pad2_length]
    have : (natRepr (n % 60)).length ≤ 2 := natRepr_length_le2 (by omega)
    omega

theorem parsePyInt_chars {s : List Char} {v : ℤ} (h : parsePyInt s = some v) :
    ∀ x ∈ s, x = '-' ∨ x = '+' ∨ isDigitChar x = true := by
  cases s with
  | nil => simp [parsePyInt] at h
  | cons c rest =>
    intro x hx
    simp only [parsePyInt] at h
    by_cases hm : c = '-'
    · rw [if_pos hm] at h
      cases hpn : parseNat rest with
      | none => rw [hpn] at h; simp at h
      | some k =>
        have hrest := (parseNat_some_digits hpn).2
        rcases List.mem_cons.mp hx with hxc | hxr
        · left; rw [hxc, hm]
        · right; right
          rw [List.all_eq_true] at hrest
          exact hrest x hxr
    · rw [if_neg hm] at h
      by_cases hp : c = '+'
      · rw [if_pos hp] at h
        cases hpn : parseNat rest with
        | none => rw [hpn] at h; simp at h
        | some k =>
          have hrest := (parseNat_some_digits hpn).2
          rcases List.mem_cons.mp hx with hxc | hxr
          · right; left; rw [hxc, hp]
          · right; right
            rw [List.all_eq_true] at hrest
            exact hrest x hxr
      · rw [if_neg hp] at h
        cases hpn : parseNat (c :: rest) with
        | none => rw [hpn] at h; simp at h
        | some k =>
          have hall := (parseNat_some_digits hpn).2
          right; right
          rw [List.all_eq_true] at hall
          exact hall x hx

theorem parsePyInt_no_colon {s : List Char} {v : ℤ} (h : parsePyInt s = some v) : ':' ∉ s := by
  intro hmem
  rcases parsePyInt_chars h ':' hmem with hc | hc | hc
  · exact absurd hc (by decide)
  · exact absurd hc (by decide)
  · exact absurd hc (by decide)

/-- C9: `formatted_time_to_seconds` does no range validation: any three
colon-separated signed integer literals are accepted and mapped to
`hours * 3600 + minutes * 60 + seconds`; in particular `"00:99:00"` parses
to 5940 seconds although `seconds_to_formatted_time 5940` is the different
string `"01:39:00"`, so the reverse round-trip fails there. -/
theorem c9_parse_no_validation :
    (∀ (s1 s2 s3 : List Char) (v1 v2 v3 : ℤ),
      parsePyInt s1 = some v1 → parsePyInt s2 = some v2 → parsePyInt s3 = some v3 →
      formatted_time_to_seconds (s1 ++ ':' :: (s2 ++ ':' :: s3)) =
        some (v1 * 3600 + v2 * 60 + v3)) ∧
    formatted_time_to_seconds "00:99:00".toList = some 5940 ∧
    seconds_to_formatted_time 5940 = "01:39:00".toList ∧
    "01:39:00".toList ≠ "00:99:00".toList := by
  refine ⟨?_, by decide, by decide, by decide⟩
  intro s1 s2 s3 v1 v2 v3 h1 h2 h3
  unfold formatted_time_to_seconds
  rw [splitChar_append _ (parsePyInt_no_colon h1)]
  rw [splitChar_append _ (parsePyInt_no_colon h2)]
  rw [splitChar_nosep (parsePyInt_no_colon h3)]
  simp only [h1, h2, h3]

/-- Witness for C9 at a concrete input with an out-of-range and a negative
field: `"01:-5:99"` is accepted and maps to `1*3600 + (-5)*60 + 99`. -/
theorem c9_parse_no_validation_witness :
    parsePyInt "-5".toList = some (-5) ∧
    formatted_time_to_seconds ("01".toList ++ ':' :: ("-5".toList ++ ':' :: "99".toList)) =
      some (1 * 3600 + (-5) * 60 + 99) :=
  ⟨by decide, c9_parse_no_validation.1 _ _ _ _ _ _ (by decide) (by decide) (by decide)⟩

/-! ## Text-block song parser (file_utils.py, parse_text_block_into_song) -/

/-- The whitespace characters stripped by Python `str.strip()`, restricted
to the ASCII range (no non-ASCII whitespace occurs in this development). -/
def isPySpace (c : Char) : Bool :=
  c = ' ' || c = '\t' || c = '\n' || c = '\r' || c = '\x0b' || c = '\x0c'

/-- Python `str.strip()`: remove leading and trailing whitespace. -/
def pyStrip (s : List Char) : List Char :=
  ((s.dropWhile isPySpace).reverse.dropWhile isPySpace).reverse

/-- The dictionary produced by `parse_text_block_into_song`, with its four
keys as fields. -/
structure SongMetadata where
  song_name : List Char
  artist_name : List Char
  artist_link : List Char
  licenses : List (List Char)
deriving DecidableEq

/-- The separator `" by "` of the header line. -/
def sepBy : List Char := [' ', 'b', 'y', ' ']

/-- The separator `" | "` of the header line. -/
def sepPipe : List Char := [' ', '|', ' ']

/-- Embedding of `parse_text_block_into_song` from src/file_utils.py:
`lines = text.strip().split('\n')`, then
`song_info = lines[0].split(' by ')`, `song_name = song_info[0].strip()`,
`artist_info = song_info[1].split(' | ')`,
`artist_name, artist_link = artist_info[0].strip(), artist_info[1].strip()`,
`licenses = [line.strip() for line in lines[1:4]]`.  The IndexError raised
by `song_info[1]` or `artist_info[1]` when the corresponding split has a
single element is modelled as `none`. -/
def parse_text_block_into_song (text : List Char) : Option SongMetadata :=
  match splitSeq ['\n'] (pyStrip text) with
  | [] => none
  | line0 :: rest =>
    match splitSeq sepBy line0 with
    | s0 :: info1 :: _ =>
      match splitSeq sepPipe info1 with
      | a0 :: a1 :: _ =>
        some ⟨pyStrip s0, pyStrip a0, pyStrip a1, (rest.take 3).map pyStrip⟩
      | _ => none
    | _ => none

/-- C2 counterexample: the claim says `artist_link` is everything after the
first `" | "` of the remainder and that headers with repeated separators
parse successfully.  The code instead keeps only the chunk between the
first and second `" | "` (here `"L1"`, not `"L1 | L2"`), and a second
`" by "` before the `" | "` makes the parse fail entirely. -/
theorem c2_counterexample :
    parse_text_block_into_song "S by A | L1 | L2".toList =
      some ⟨"S".toList, "A".toList, "L1".toList, []⟩ ∧
    "L1".toList ≠ "L1 | L2".toList ∧
    parse_text_block_into_song "X by Y by Z | L".toList = none := by
  refine ⟨by decide, by decide, by decide⟩

/-- C2 as amended: with `parts = line0.split(' by ')` (all occurrences) and
`sub = parts[1].split(' | ')` (all occurrences), a successful parse yields
`song_name = parts[0].strip()`, `artist_name = sub[0].strip()` and
`artist_link = sub[1].strip()`.  `parts[0]` is the text before the first
`" by "` of the header, but the remainder considered is only `parts[1]`,
the chunk between the first and the second `" by "`, and `artist_link` is
only `sub[1]`, the chunk between the first and the second `" | "` of that
chunk (not everything after the first one). -/
theorem c2_amended (text line0 : List Char) (rest : List (List Char))
    (s0 seg a0 a1 : List Char) (ps ss : List (List Char))
    (hsplit : splitSeq ['\n'] (pyStrip text) = line0 :: rest)
    (hby : splitSeq sepBy line0 = s0 :: seg :: ps)
    (hpipe : splitSeq sepPipe seg = a0 :: a1 :: ss) :
    parse_text_block_into_song text =
      some ⟨pyStrip s0, pyStrip a0, pyStrip a1, (rest.take 3).map pyStrip⟩ ∧
    line0 = s0 ++ sepBy ++ joinSeq sepBy (seg :: ps) ∧
    containsSeq sepBy s0 = false ∧
    seg = a0 ++ sepPipe ++ joinSeq sepPipe (a1 :: ss) ∧
    containsSeq sepPipe a0 = false := by
  refine ⟨?_, ?_, ?_, ?_, ?_⟩
  · simp only [parse_text_block_into_song, hsplit, hby, hpipe]
  · have hj := @joinSeq_splitSeq sepBy (by decide) line0
    rw [hby, joinSeq_cons_cons] at hj
    exact hj.symm
  · exact splitSeq_no_sep (by decide) line0 s0 (by rw [hby]; exact List.mem_cons_self _ _)
  · have hj := @joinSeq_splitSeq sepPipe (by decide) seg
    rw [hpipe, joinSeq_cons_cons] at hj
    exact hj.symm
  · exact splitSeq_no_sep (by decide) seg a0 (by rw [hpipe]; exact List.mem_cons_self _ _)

/-- Witness for C2 (amended) at the spec's own example block. -/
theorem c2_amended_witness :
    parse_text_block_into_song
        "Ocean Waves by Jane Doe | http://example.com/jane\nCC-BY 4.0\nCC0".toList =
      some ⟨pyStrip "Ocean Waves".toList,
            pyStrip "Jane Doe".toList,
            pyStrip "http://example.com/jane".toList,
            (["CC-BY 4.0".toList, "CC0".toList].take 3).map pyStrip⟩ ∧
    "Ocean Waves by Jane Doe | http://example.com/jane".toList =
      "Ocean Waves".toList ++ sepBy ++
        joinSeq sepBy ["Jane Doe | http://example.com/jane".toList] ∧
    containsSeq sepBy "Ocean Waves".toList = false ∧
    "Jane Doe | http://example.com/jane".toList =
      "Jane Doe".toList ++ sepPipe ++ joinSeq sepPipe ["http://example.com/jane".toList] ∧
    containsSeq sepPipe "Jane Doe".toList = false :=
  c2_amended _ _ _ _ _ _ _ _ _ (by decide) (by decide) (by decide)

/-- C3 counterexample: the claim says the parse fails exactly when the
header lacks `" by "`, or lacks `" | "` after the first `" by "`.  Here
the header has `" by "` and its remainder after the first `" by "`
(namely `"Q by R | S"`) contains `" | "`, yet the parse fails, because the
code only looks for `" | "` inside the chunk between the first and second
`" by "`. -/
theorem c3_counterexample :
    parse_text_block_into_song "P by Q by R | S".toList = none ∧
    containsSeq sepBy "P by Q by R | S".toList = true ∧
    containsSeq sepPipe "Q by R | S".toList = true ∧
    "P by Q by R | S".toList = "P".toList ++ sepBy ++ "Q by R | S".toList := by
  refine ⟨by decide, by decide, by decide, by decide⟩

/-- C3 as amended: the parse fails exactly when the header line lacks
`" by "`, or the chunk between the first and second `" by "` (Python's
`split(' by ')[1]`) lacks `" | "`.  On failure the result is `none`, so no
partial record is produced. -/
theorem c3_amended (text line0 : List Char) (rest : List (List Char))
    (hsplit : splitSeq ['\n'] (pyStrip text) = line0 :: rest) :
    parse_text_block_into_song text = none ↔
      (containsSeq sepBy line0 = false ∨
       ∃ s0 seg ps, splitSeq sepBy line0 = s0 :: seg :: ps ∧
         containsSeq sepPipe seg = false) := by
  cases hby : splitSeq sepBy line0 with
  | nil => exact absurd hby (splitSeq_ne_nil _ _)
  | cons s0 tl =>
    cases tl with
    | nil =>
      have hnc : containsSeq sepBy line0 = false := by
        by_contra hcon
        rw [Bool.not_eq_false] at hcon
        have h2 := (containsSeq_iff_split (by decide) line0).mp hcon
        rw [hby] at h2
        simp at h2
      simp only [parse_text_block_into_song, hsplit, hby]
      exact ⟨fun _ => Or.inl hnc, fun _ => trivial⟩
    | cons seg ps =>
      have hcby : containsSeq sepBy line0 = true := by
        rw [containsSeq_iff_split (by decide) line0, hby]
        simp only [List.length_cons]
        omega
      cases hpipe : splitSeq sepPipe seg with
      | nil => exact absurd hpipe (splitSeq_ne_nil _ _)
      | cons a0 tl2 =>
        cases tl2 with
        | nil =>
          have hnp : containsSeq sepPipe seg = false := by
            by_contra hcon
            rw [Bool.not_eq_false] at hcon
            have h2 := (containsSeq_iff_split (by decide) seg).mp hcon
            rw [hpipe] at h2
            simp at h2
          simp only [parse_text_block_into_song, hsplit, hby, hpipe]
          exact ⟨fun _ => Or.inr ⟨s0, seg, ps, rfl, hnp⟩, fun _ => trivial⟩
        | cons a1 ss =>
          have hp : containsSeq sepPipe seg = true := by
            rw [containsSeq_iff_split (by decide) seg, hpipe]
            simp only [List.length_cons]
            omega
          simp only [parse_text_block_into_song, hsplit, hby, hpipe]
          constructor
          · intro hcon
            exact absurd hcon (by simp)
          · rintro (hl | ⟨s0x, segx, psx, heq, hcs⟩)
            · rw [hl] at hcby
              exact Bool.noConfusion hcby
            · injection heq with h1 h2
              injection h2 with h3 h4
              rw [← h3] at hcs
              rw [hcs] at hp
              exact Bool.noConfusion hp

/-- Witness for C3 (amended) at the spec's malformed example: the header
lacks `" by "`, so the parse fails. -/
theorem c3_amended_witness :
    parse_text_block_into_song "Malformed Line Without Separator".toList = none :=
  (c3_amended "Malformed Line Without Separator".toList
      "Malformed Line Without Separator".toList [] (by decide)).mpr
    (Or.inl (by decide))

/-- C4 counterexample: with blank lines at the trailing end of the pasted
block, `text.strip()` removes them before the lines are split, so they do
not appear as empty-string license entries.  The trimmed lines 1..3 of the
raw block are `["L1", "", ""]`, but the parse yields licenses `["L1"]`. -/
theorem c4_counterexample :
    parse_text_block_into_song "A by B | C\nL1\n\n".toList =
      some ⟨"A".toList, "B".toList, "C".toList, ["L1".toList]⟩ ∧
    (((splitSeq ['\n'] "A by B | C\nL1\n\n".toList).drop 1).take 3).map pyStrip =
      ["L1".toList, [], []] ∧
    ["L1".toList] ≠ ["L1".toList, ([] : List Char), ([] : List Char)] := by
  refine ⟨by decide, by decide, by decide⟩

/-- C4 as amended: on success the licenses are exactly the trimmed lines
1..3 of the *stripped* block, in order, at most three of them; interior
blank lines are preserved as empty entries, while blank lines at the
trailing end of the block are removed by the initial `strip()` and yield
no entries. -/
theorem c4_amended (text : List Char) (md : SongMetadata)
    (h : parse_text_block_into_song text = some md) :
    md.licenses = (((splitSeq ['\n'] (pyStrip text)).drop 1).take 3).map pyStrip ∧
    md.licenses.length ≤ 3 := by
  cases hsplit : splitSeq ['\n'] (pyStrip text) with
  | nil => exact absurd hsplit (splitSeq_ne_nil _ _)
  | cons line0 rest =>
    cases hby : splitSeq sepBy line0 with
    | nil => exact absurd hby (splitSeq_ne_nil _ _)
    | cons s0 tl =>
      cases tl with
      | nil =>
        simp only [parse_text_block_into_song, hsplit, hby] at h
        exact absurd h (by simp)
      | cons seg ps =>
        cases hpipe : splitSeq sepPipe seg with
        | nil => exact absurd hpipe (splitSeq_ne_nil _ _)
        | cons a0 tl2 =>
          cases tl2 with
          | nil =>
            simp only [parse_text_block_into_song, hsplit, hby, hpipe] at h
            exact absurd h (by simp)
          | cons a1 ss =>
            simp only [parse_text_block_into_song, hsplit, hby, hpipe] at h
            have hmd := (Option.some.inj h).symm
            subst hmd
            refine ⟨rfl, ?_⟩
            simp only [List.length_map, List.length_take]
            omega

/-- Witness for C4 (amended): an interior blank line is preserved as an
empty license entry. -/
theorem c4_amended_witness :
    (⟨"A".toList, "B".toList, "C".toList, [[], "CC0".toList]⟩ : SongMetadata).licenses =
      (((splitSeq ['\n'] (pyStrip "A by B | C\n\nCC0".toList)).drop 1).take 3).map pyStrip ∧
    (⟨"A".toList, "B".toList, "C".toList, [[], "CC0".toList]⟩ : SongMetadata).licenses.length ≤ 3 :=
  c4_amended "A by B | C\n\nCC0".toList _ (by decide)

/-! ## File-size formatting (utils.py, bytes_to_formatted_size /
formatted_size_to_bytes)

Python computes with binary floats here.  The embedding uses exact
rationals: every operation involved (parsing a short decimal literal,
multiplying or dividing by the power of two `1024`) is exact on the
inputs exercised in this development, where the float and the rational
agree. -/

/-- Python `int(x)` on a number: truncation toward zero. -/
def ratTrunc (q : ℚ) : ℤ := if 0 ≤ q then ⌊q⌋ else -⌊-q⌋

/-- Worker for Python `str.split()` with no argument: split on runs of
whitespace, discarding empty tokens.  `acc` holds the current token,
reversed. -/
def splitWsAux : List Char → List Char → List (List Char)
  | [], acc => if acc.isEmpty then [] else [acc.reverse]
  | c :: r, acc =>
    if isPySpace c then
      if acc.isEmpty then splitWsAux r [] else acc.reverse :: splitWsAux r []
    else splitWsAux r (c :: acc)

/-- Python `s.split()` (no argument): whitespace-run splitting. -/
def splitWhitespace (l : List Char) : List (List Char) := splitWsAux l []

/-- Python `["B", "KB", "MB", "GB", "TB"].index(unit)`: the position of
the unit in the fixed unit list, `none` (a ValueError) when absent. -/
def unitIdx (u : List Char) : Option ℕ :=
  if u = ['B'] then some 0
  else if u = ['K', 'B'] then some 1
  else if u = ['M', 'B'] then some 2
  else if u = ['G', 'B'] then some 3
  else if u = ['T', 'B'] then some 4
  else none

/-- Python `float(s)` on an unsigned plain decimal literal (digits with at
most one point, at least one digit): the exact rational value.  Exponent
forms, `inf`/`nan` and underscores never arise here and are not
modelled. -/
def parseDecimalCore (s : List Char) : Option ℚ :=
  match splitSeq ['.'] s with
  | [i] => (parseNat i).map (fun n => (n : ℚ))
  | [i, f] =>
    if i ++ f ≠ [] ∧ i.all isDigitChar = true ∧ f.all isDigitChar = true then
      some ((((i ++ f).foldl (fun a c => a * 10 + digitVal c) 0 : ℕ) : ℚ) / (10 : ℚ) ^ f.length)
    else none
  | _ => none

/-- Python `float(s)` on an optionally signed plain decimal literal. -/
def parseDecimal (s : List Char) : Option ℚ :=
  match s with
  | [] => none
  | c :: r =>
    if c = '-' then (parseDecimalCore r).map (fun q => -q)
    else if c = '+' then parseDecimalCore r
    else parseDecimalCore (c :: r)

/-- Embedding of `formatted_size_to_bytes` from src/utils.py:
`size, unit = formatted_size.split()`, `size = float(size)`,
`unit_index = ["B", "KB", "MB", "GB", "TB"].index(unit)`,
`int(size * (1024 ** unit_index))`.  Unpacking, conversion or lookup
failures raise in Python and are modelled as `none`. -/
def formatted_size_to_bytes (s : List Char) : Option ℤ :=
  match splitWhitespace s with
  | [szTok, unitTok] =>
    match parseDecimal szTok, unitIdx unitTok with
    | some m, some e => some (ratTrunc (m * 1024 ^ e))
    | _, _ => none
  | _ => none

theorem splitWsAux_chunk {a : List Char} (h : a.all (fun c => !isPySpace c) = true) :
    ∀ rest acc, splitWsAux (a ++ rest) acc = splitWsAux rest (a.reverse ++ acc) := by
  induction a with
  | nil => intro rest acc; simp
  | cons x a2 ih =>
    intro rest acc
    rw [List.all_cons, Bool.and_eq_true] at h
    have hx : isPySpace x = false := by
      have := h.1
      rwa [Bool.not_eq_eq_eq_not, Bool.not_true] at this
    rw [List.cons_append]
    show splitWsAux (x :: (a2 ++ rest)) acc = _
    rw [splitWsAux]
    simp only [hx, Bool.false_eq_true, if_false]
    rw [ih h.2 rest (x :: acc)]
    simp

theorem splitWhitespace_pair {a b : List Char}
    (ha : a ≠ []) (han : a.all (fun c => !isPySpace c) = true)
    (hb : b ≠ []) (hbn : b.all (fun c => !isPySpace c) = true) :
    splitWhitespace (a ++ ' ' :: b) = [a, b] := by
  unfold splitWhitespace
  rw [splitWsAux_chunk han (' ' :: b) []]
  rw [splitWsAux]
  have hsp : isPySpace ' ' = true := by decide
  simp only [hsp, if_true]
  have hrev : (a.reverse ++ []).isEmpty = false := by
    simp [List.isEmpty_iff, ha]
  simp only [hrev, Bool.false_eq_true, if_false]
  have hb2 : splitWsAux b [] = [b] := by
    have := splitWsAux_chunk hbn [] []
    rw [List.append_nil] at this
    rw [this]
    rw [splitWsAux]
    simp [List.isEmpty_iff, hb]
  rw [hb2]
  simp [ha]

theorem digit_not_pyspace {x : Char} (h : isDigitChar x = true) : isPySpace x = false := by
  have h1 : ¬(x = ' ') := fun he => by rw [he] at h; exact Bool.noConfusion h
  have h2 : ¬(x = '\t') := fun he => by rw [he] at h; exact Bool.noConfusion h
  have h3 : ¬(x = '\n') := fun he => by rw [he] at h; exact Bool.noConfusion h
  have h4 : ¬(x = '\r') := fun he => by rw [he] at h; exact Bool.noConfusion h
  have h5 : ¬(x = '\x0b') := fun he => by rw [he] at h; exact Bool.noConfusion h
  have h6 : ¬(x = '\x0c') := fun he => by rw [he] at h; exact Bool.noConfusion h
  simp [isPySpace, h1, h2, h3, h4, h5, h6]

theorem parseDecimalCore_eq_one {s i : List Char} (hsp : splitSeq ['.'] s = [i]) :
    parseDecimalCore s = (parseNat i).map (fun n => (n : ℚ)) := by
  unfold parseDecimalCore
  rw [hsp]

theorem parseDecimalCore_eq_two {s i f : List Char} (hsp : splitSeq ['.'] s = [i, f]) :
    parseDecimalCore s =
      if i ++ f ≠ [] ∧ i.all isDigitChar = true ∧ f.all isDigitChar = true then
        some ((((i ++ f).foldl (fun a c => a * 10 + digitVal c) 0 : ℕ) : ℚ) / (10 : ℚ) ^ f.length)
      else none := by
  unfold parseDecimalCore
  rw [hsp]

theorem parseDecimalCore_eq_more {s i f g : List Char} {tl : List (List Char)}
    (hsp : splitSeq ['.'] s = i :: f :: g :: tl) : parseDecimalCore s = none := by
  unfold parseDecimalCore
  rw [hsp]

theorem parseDecimalCore_nospace {s : List Char} {m : ℚ} (h : parseDecimalCore s = some m) :
    s ≠ [] ∧ s.all (fun c => !isPySpace c) = true := by
  cases hsp : splitSeq ['.'] s with
  | nil => exact absurd hsp (splitSeq_ne_nil _ _)
  | cons i tl =>
    have hjoin := @joinSeq_splitSeq ['.'] (by decide) s
    rw [hsp] at hjoin
    cases tl with
    | nil =>
      rw [parseDecimalCore_eq_one hsp] at h
      cases hpn : parseNat i with
      | none => rw [hpn] at h; simp at h
      | some k =>
        obtain ⟨hne, hdig⟩ := parseNat_some_digits hpn
        have hs : s = i := by rw [← hjoin]; rfl
        subst hs
        refine ⟨hne, ?_⟩
        rw [List.all_eq_true] at hdig ⊢
        intro x hx
        have := digit_not_pyspace (hdig x hx)
        simp [this]
    | cons f tl2 =>
      cases tl2 with
      | nil =>
        rw [parseDecimalCore_eq_two hsp] at h
        by_cases hcond : i ++ f ≠ [] ∧ i.all isDigitChar = true ∧ f.all isDigitChar = true
        · have hs : s = i ++ '.' :: f := by
            rw [← hjoin, joinSeq_cons_cons]
            simp [joinSeq]
          subst hs
          refine ⟨by simp, ?_⟩
          rw [List.all_eq_true]
          intro x hx
          rcases List.mem_append.mp hx with hxi | hxf
          · have := digit_not_pyspace
              ((List.all_eq_true.mp hcond.2.1) x hxi)
            simp [this]
          · rcases List.mem_cons.mp hxf with hdot | hxf2
            · subst hdot; decide
            · have := digit_not_pyspace
                ((List.all_eq_true.mp hcond.2.2) x hxf2)
              simp [this]
        · rw [if_neg hcond] at h
          exact absurd h (by simp)
      | cons g tl3 =>
        rw [parseDecimalCore_eq_more hsp] at h
        exact absurd h (by simp)

theorem parseDecimal_nospace {s : List Char} {m : ℚ} (h : parseDecimal s = some m) :
    s ≠ [] ∧ s.all (fun c => !isPySpace c) = true := by
  cases s with
  | nil => simp [parseDecimal] at h
  | cons c r =>
    refine ⟨by simp, ?_⟩
    simp only [parseDecimal] at h
    by_cases hm : c = '-'
    · rw [if_pos hm] at h
      cases hpc : parseDecimalCore r with
      | none => rw [hpc] at h; simp at h
      | some q =>
        have hns := (parseDecimalCore_nospace hpc).2
        subst hm
        simp only [List.all_cons, hns, Bool.and_true]
        decide
    · rw [if_neg hm] at h
      by_cases hp : c = '+'
      · rw [if_pos hp] at h
        cases hpc : parseDecimalCore r with
        | none => rw [hpc] at h; simp at h
        | some q =>
          have hns := (parseDecimalCore_nospace hpc).2
          subst hp
          simp only [List.all_cons, hns, Bool.and_true]
          decide
      · rw [if_neg hp] at h
        exact (parseDecimalCore_nospace h).2

theorem unitIdx_nospace {u : List Char} {e : ℕ} (h : unitIdx u = some e) :
    u ≠ [] ∧ u.all (fun c => !isPySpace c) = true := by
  unfold unitIdx at h
  split_ifs at h with h1 h2 h3 h4 h5
  · subst h1; exact ⟨by simp, by decide⟩
  · subst h2; exact ⟨by simp, by decide⟩
  · subst h3; exact ⟨by simp, by decide⟩
  · subst h4; exact ⟨by simp, by decide⟩
  · subst h5; exact ⟨by simp, by decide⟩

/-- C5 counterexample: the claim says `formatted_size_to_bytes` rounds to
the nearest integer, but Python's `int()` truncates toward zero:
`"1.5 B"` yields 1, while rounding `3/2 * 1024^0` gives 2. -/
theorem c5_counterexample :
    formatted_size_to_bytes "1.5 B".toList = some 1 ∧
    parseDecimal "1.5".toList = some (3 / 2 : ℚ) ∧
    unitIdx "B".toList = some 0 ∧
    round ((3 / 2 : ℚ) * 1024 ^ (0 : ℕ)) = (2 : ℤ) ∧
    (1 : ℤ) ≠ 2 := by
  have hsplit : splitWhitespace "1.5 B".toList = ["1.5".toList, "B".toList] := by decide
  have hpd : parseDecimal "1.5".toList = some (((15 : ℕ) : ℚ) / (10 : ℚ) ^ 1) := rfl
  have hval : (((15 : ℕ) : ℚ) / (10 : ℚ) ^ 1) = (3 / 2 : ℚ) := by norm_num
  refine ⟨?_, by rw [hpd, hval], by decide, ?_, by decide⟩
  · simp only [formatted_size_to_bytes, hsplit, hpd, hval]
    have hu : unitIdx "B".toList = some 0 := by decide
    rw [hu]
    simp only [ratTrunc]
    rw [if_pos (by norm_num)]
    norm_num
  · rw [round_eq]
    norm_num

/-- C5 as amended: on a well-formed `"<magnitude> <unit>"` input whose
magnitude parses to the rational `m` and whose unit sits at index `e` of
`[B, KB, MB, GB, TB]`, `formatted_size_to_bytes` returns
`int(m * 1024 ^ e)` truncated toward zero (Python `int()`), not rounded
to nearest. -/
theorem c5_amended (sz u : List Char) (m : ℚ) (e : ℕ)
    (hsz : parseDecimal sz = some m) (hu : unitIdx u = some e) :
    formatted_size_to_bytes (sz ++ ' ' :: u) = some (ratTrunc (m * 1024 ^ e)) := by
  obtain ⟨hsne, hsns⟩ := parseDecimal_nospace hsz
  obtain ⟨hune, huns⟩ := unitIdx_nospace hu
  unfold formatted_size_to_bytes
  rw [splitWhitespace_pair hsne hsns hune huns]
  simp only [hsz, hu]

/-- Witness for C5 (amended) at the spec's example magnitude `"2.50 MB"`. -/
theorem c5_amended_witness :
    formatted_size_to_bytes ("2.50".toList ++ ' ' :: "MB".toList) =
      some (ratTrunc ((((250 : ℕ) : ℚ) / (10 : ℚ) ^ 2) * 1024 ^ 2)) :=
  c5_amended _ _ _ _ rfl (by decide)

/-- The unit-selection loop of `bytes_to_formatted_size`:
`while file_size_bytes >= 1024 and unit_index < len(units) - 1`, dividing
by 1024 and advancing the unit index.  The index rises by one per
iteration starting from 0 and the loop guard requires it below 4, so four
fuel steps are exactly the iterations the Python loop can make. -/
def sizeReduce : ℕ → ℚ → ℕ → ℚ × ℕ
  | 0, v, i => (v, i)
  | f + 1, v, i =>
    if 1024 ≤ v ∧ i < 4 then sizeReduce f (v / 1024) (i + 1) else (v, i)

/-- Round half to even, as Python's float formatting does on the exact
value (Python applies it to the double, which agrees on the exactly
representable values arising here). -/
def roundHalfEven (q : ℚ) : ℤ :=
  if q - ⌊q⌋ < 1/2 then ⌊q⌋
  else if 1/2 < q - ⌊q⌋ then ⌊q⌋ + 1
  else if ⌊q⌋ % 2 = 0 then ⌊q⌋ else ⌊q⌋ + 1

/-- Python `f"{v:.2f}"` for a non-negative value: round to two decimal
places (half to even) and print with exactly two digits after the
point. -/
def formatFixed2 (q : ℚ) : List Char :=
  natRepr ((roundHalfEven (100 * q)).toNat / 100) ++ '.' ::
    pad2 (natRepr ((roundHalfEven (100 * q)).toNat % 100))

/-- The unit list `["B", "KB", "MB", "GB", "TB"]` of utils.py, indexed. -/
def unitAt (i : ℕ) : List Char :=
  ([['B'], ['K', 'B'], ['M', 'B'], ['G', 'B'], ['T', 'B']] : List (List Char)).getD i []

/-- Embedding of `bytes_to_formatted_size` from src/utils.py: run the
division loop, then render `f"{file_size_bytes:.2f} {units[unit_index]}"`.
Python's float division by 1024 is modelled by exact rational division. -/
def bytes_to_formatted_size (n : ℕ) : List Char :=
  formatFixed2 (sizeReduce 4 (n : ℚ) 0).1 ++ ' ' :: unitAt (sizeReduce 4 (n : ℚ) 0).2

/-- The unit index the loop ends at, in closed form. -/
def specIdx (n : ℕ) : ℕ :=
  if n < 1024 then 0
  else if n < 1024 ^ 2 then 1
  else if n < 1024 ^ 3 then 2
  else if n < 1024 ^ 4 then 3
  else 4

theorem sizeReduce_eval (n : ℕ) :
    sizeReduce 4 (n : ℚ) 0 = ((n : ℚ) / 1024 ^ specIdx n, specIdx n) := by
  have h1024 : (0:ℚ) < 1024 := by norm_num
  by_cases h0 : n < 1024
  · have hs : specIdx n = 0 := by unfold specIdx; rw [if_pos h0]
    rw [hs]
    have hc : ¬((1024:ℚ) ≤ (n:ℚ) ∧ 0 < 4) := by
      rintro ⟨hc, -⟩
      have : (1024:ℕ) ≤ n := by exact_mod_cast hc
      omega
    simp only [sizeReduce]
    rw [if_neg hc]
    norm_num
  · have hn0 : (1024:ℚ) ≤ (n:ℚ) := by
      have := Nat.not_lt.mp h0
      exact_mod_cast this
    by_cases hb1 : n < 1024 ^ 2
    · have hs : specIdx n = 1 := by unfold specIdx; rw [if_neg h0, if_pos hb1]
      rw [hs]
      have hb1q : n < 1048576 := by norm_num at hb1; exact hb1
      have hc : ¬((1024:ℚ) ≤ (n:ℚ) / 1024 ∧ 1 < 4) := by
        rintro ⟨hc, -⟩
        rw [le_div_iff₀ h1024] at hc
        norm_num at hc
        have : (1048576:ℕ) ≤ n := by exact_mod_cast hc
        omega
      simp only [sizeReduce]
      rw [if_pos ⟨hn0, by norm_num⟩, if_neg hc]
      norm_num
    · have hn1 : (1024:ℚ) ≤ (n:ℚ) / 1024 := by
        rw [le_div_iff₀ h1024]
        have : (1048576:ℕ) ≤ n := by
          have := Nat.not_lt.mp hb1
          norm_num at this
          exact this
        norm_num
        exact_mod_cast this
      by_cases hb2 : n < 1024 ^ 3
      · have hs : specIdx n = 2 := by unfold specIdx; rw [if_neg h0, if_neg hb1, if_pos hb2]
        rw [hs]
        have hb2q : n < 1073741824 := by norm_num at hb2; exact hb2
        have hc : ¬((1024:ℚ) ≤ (n:ℚ) / 1024 / 1024 ∧ 2 < 4) := by
          rintro ⟨hc, -⟩
          rw [div_div, le_div_iff₀ (by norm_num)] at hc
          norm_num at hc
          have : (1073741824:ℕ) ≤ n := by exact_mod_cast hc
          omega
        simp only [sizeReduce]
        rw [if_pos ⟨hn0, by norm_num⟩, if_pos ⟨hn1, by norm_num⟩, if_neg hc]
        rw [div_div]
        norm_num
      · have hn2 : (1024:ℚ) ≤ (n:ℚ) / 1024 / 1024 := by
          rw [div_div, le_div_iff₀ (by norm_num)]
          have : (1073741824:ℕ) ≤ n := by
            have := Nat.not_lt.mp hb2
            norm_num at this
            exact this
          norm_num
          exact_mod_cast this
        by_cases hb3 : n < 1024 ^ 4
        · have hs : specIdx n = 3 := by unfold specIdx; rw [if_neg h0, if_neg hb1, if_neg hb2, if_pos hb3]
          rw [hs]
          have hb3q : n < 1099511627776 := by norm_num at hb3; exact hb3
          have hc : ¬((1024:ℚ) ≤ (n:ℚ) / 1024 / 1024 / 1024 ∧ 3 < 4) := by
            rintro ⟨hc, -⟩
            rw [div_div, div_div, le_div_iff₀ (by norm_num)] at hc
            norm_num at hc
            have : (1099511627776:ℕ) ≤ n := by exact_mod_cast hc
            omega
          simp only [sizeReduce]
          rw [if_pos ⟨hn0, by norm_num⟩, if_pos ⟨hn1, by norm_num⟩,
            if_pos ⟨hn2, by norm_num⟩, if_neg hc]
          rw [div_div, div_div]
          norm_num
        · have hs : specIdx n = 4 := by unfold specIdx; rw [if_neg h0, if_neg hb1, if_neg hb2, if_neg hb3]
          rw [hs]
          have hn3 : (1024:ℚ) ≤ (n:ℚ) / 1024 / 1024 / 1024 := by
            rw [div_div, div_div, le_div_iff₀ (by norm_num)]
            have : (1099511627776:ℕ) ≤ n := by
              have := Nat.not_lt.mp hb3
              norm_num at this
              exact this
            norm_num
            exact_mod_cast this
          simp only [sizeReduce]
          rw [if_pos ⟨hn0, by norm_num⟩, if_pos ⟨hn1, by norm_num⟩,
            if_pos ⟨hn2, by norm_num⟩, if_pos ⟨hn3, by norm_num⟩]
          rw [div_div, div_div, div_div]
          norm_num

theorem specIdx_le4 (n : ℕ) : specIdx n ≤ 4 := by
  unfold specIdx
  split_ifs <;> omega

theorem specIdx_lt_bound {n : ℕ} (h : specIdx n < 4) : n < 1024 ^ (specIdx n + 1) := by
  unfold specIdx at h ⊢
  split_ifs at h ⊢ with h1 h2 h3 h4
  · simpa using h1
  · simpa using h2
  · simpa using h3
  · simpa using h4
  · omega

theorem specIdx_ge_bound {n : ℕ} : ∀ j, j < specIdx n → 1024 ^ (j + 1) ≤ n := by
  unfold specIdx
  split_ifs with h1 h2 h3 h4 <;> intro j hj
  · omega
  · have hj0 : j = 0 := by omega
    subst hj0
    simpa using Nat.not_lt.mp h1
  · interval_cases j
    · simpa using Nat.not_lt.mp h1
    · simpa using Nat.not_lt.mp h2
  · interval_cases j
    · simpa using Nat.not_lt.mp h1
    · simpa using Nat.not_lt.mp h2
    · simpa using Nat.not_lt.mp h3
  · interval_cases j
    · simpa using Nat.not_lt.mp h1
    · simpa using Nat.not_lt.mp h2
    · simpa using Nat.not_lt.mp h3
    · simpa using Nat.not_lt.mp h4

theorem roundHalfEven_int (z : ℤ) : roundHalfEven ((z : ℚ)) = z := by
  norm_num [roundHalfEven, Int.floor_intCast]

theorem formatFixed2_of_int (q : ℚ) (z : ℤ) (h : 100 * q = (z : ℚ)) :
    formatFixed2 q = natRepr (z.toNat / 100) ++ '.' :: pad2 (natRepr (z.toNat % 100)) := by
  unfold formatFixed2
  rw [h, roundHalfEven_int]

/-- C6: `bytes_to_formatted_size` renders
`value-scaled-by-1024^i` with two decimals, one space and the unit at
index `i`, where `i` is the loop's unit index: below 4 only when the
scaled value is under 1024, and every earlier index left a value of at
least 1024; the spec's three concrete examples hold. -/
theorem c6_format_size :
    (∀ n : ℕ,
      bytes_to_formatted_size n =
        formatFixed2 ((n : ℚ) / 1024 ^ specIdx n) ++ ' ' :: unitAt (specIdx n) ∧
      specIdx n ≤ 4 ∧
      (specIdx n < 4 → (n : ℚ) / 1024 ^ specIdx n < 1024) ∧
      (∀ j : ℕ, j < specIdx n → 1024 ≤ (n : ℚ) / 1024 ^ j)) ∧
    bytes_to_formatted_size 0 = "0.00 B".toList ∧
    bytes_to_formatted_size 1536 = "1.50 KB".toList ∧
    bytes_to_formatted_size (1024 ^ 4) = "1.00 TB".toList := by
  have hmain : ∀ n : ℕ,
      bytes_to_formatted_size n =
        formatFixed2 ((n : ℚ) / 1024 ^ specIdx n) ++ ' ' :: unitAt (specIdx n) := by
    intro n
    unfold bytes_to_formatted_size
    rw [sizeReduce_eval n]
  refine ⟨?_, ?_, ?_, ?_⟩
  · intro n
    refine ⟨hmain n, specIdx_le4 n, ?_, ?_⟩
    · intro h
      have hb := specIdx_lt_bound h
      rw [div_lt_iff₀ (by positivity)]
      calc (n:ℚ) < ((1024 ^ (specIdx n + 1) : ℕ) : ℚ) := by exact_mod_cast hb
        _ = 1024 * 1024 ^ specIdx n := by push_cast; ring
    · intro j hj
      have hb := specIdx_ge_bound j hj
      rw [le_div_iff₀ (by positivity)]
      calc (1024:ℚ) * 1024 ^ j = ((1024 ^ (j + 1) : ℕ) : ℚ) := by push_cast; ring
        _ ≤ (n:ℚ) := by exact_mod_cast hb
  · rw [hmain 0]
    have hsi : specIdx 0 = 0 := by norm_num [specIdx]
    rw [hsi]
    rw [formatFixed2_of_int _ 0 (by push_cast; norm_num)]
    decide
  · rw [hmain 1536]
    have hsi : specIdx 1536 = 1 := by norm_num [specIdx]
    rw [hsi]
    rw [formatFixed2_of_int _ 150 (by push_cast; norm_num)]
    decide
  · rw [hmain (1024 ^ 4)]
    have hsi : specIdx (1024 ^ 4) = 4 := by norm_num [specIdx]
    rw [hsi]
    rw [formatFixed2_of_int _ 100 (by push_cast; norm_num)]
    decide

/-- Witness for C6 at 1536 bytes: the rendering equation holds and the
loop really did pass index 0 with a value of at least 1024. -/
theorem c6_format_size_witness :
    bytes_to_formatted_size 1536 =
      formatFixed2 ((1536 : ℚ) / 1024 ^ specIdx 1536) ++ ' ' :: unitAt (specIdx 1536) ∧
    (1024 : ℚ) ≤ (1536 : ℚ) / 1024 ^ (0 : ℕ) := by
  have h := (c6_format_size.1 1536)
  refine ⟨?_, ?_⟩
  · have h1 := h.1
    have hcast : ((1536 : ℕ) : ℚ) = (1536 : ℚ) := by norm_num
    rw [hcast] at h1
    exact h1
  · have h4 := h.2.2.2 0 (by norm_num [specIdx])
    have hcast : ((1536 : ℕ) : ℚ) = (1536 : ℚ) := by norm_num
    rw [hcast] at h4
    exact h4

/-! ## Unique file name resolution (file_utils.py, get_unique_file_name)

The filesystem is abstracted as an existence predicate
`fs : List Char → Bool`; the unbounded `while os.path.exists(...)` loop
is given explicit fuel, with `none` standing for non-termination within
that fuel. -/

/-- Python `s.rfind(c)` as used by `os.path.splitext`: the index of the
last occurrence of `c`, or `-1` when absent. -/
def rfindIdx (c : Char) (s : List Char) : ℤ :=
  match List.findIdx? (fun x => x == c) s.reverse with
  | some i => (s.length : ℤ) - 1 - i
  | none => -1

/-- `os.path.splitext` for POSIX paths: when the last `.` lies after the
last `/` and the characters between them are not all dots (the
leading-dot rule for hidden files), split the path at that last dot;
otherwise the extension is empty. -/
def splitext (p : List Char) : List Char × List Char :=
  if rfindIdx '/' p < rfindIdx '.' p then
    if ((p.drop (rfindIdx '/' p + 1).toNat).take
          ((rfindIdx '.' p - rfindIdx '/' p) - 1).toNat).all (fun c => c == '.') then
      (p, [])
    else (p.take (rfindIdx '.' p).toNat, p.drop (rfindIdx '.' p).toNat)
  else (p, [])

/-- The candidate `f"{base_name} ({counter}){extension}"`. -/
def numberedName (base ext : List Char) (k : ℕ) : List Char :=
  base ++ ' ' :: '(' :: (natRepr k ++ ')' :: ext)

/-- The `while os.path.exists(unique_path)` loop of `get_unique_file_name`
after the first check: try `numberedName base ext counter` for
`counter = 1, 2, ...` until the predicate is false. -/
def uniqueLoop (fs : List Char → Bool) (base ext : List Char) : ℕ → ℕ → Option (List Char)
  | 0, _ => none
  | f + 1, counter =>
    if fs (numberedName base ext counter) then uniqueLoop fs base ext f (counter + 1)
    else some (numberedName base ext counter)

/-- Embedding of `get_unique_file_name` from src/file_utils.py: if the
path does not exist return it unchanged, else append ` (counter)` before
the extension for counter 1, 2, ... until a non-existing path is found. -/
def get_unique_file_name (fs : List Char → Bool) (fuel : ℕ) (p : List Char) :
    Option (List Char) :=
  if fs p then uniqueLoop fs (splitext p).1 (splitext p).2 fuel 1 else some p

theorem uniqueLoop_spec (fs : List Char → Bool) (base ext : List Char) :
    ∀ (fuel counter n : ℕ), counter ≤ n → n < counter + fuel →
      fs (numberedName base ext n) = false →
      (∀ m, counter ≤ m → m < n → fs (numberedName base ext m) = true) →
      uniqueLoop fs base ext fuel counter = some (numberedName base ext n) := by
  intro fuel
  induction fuel with
  | zero => intro counter n h1 h2 _ _; omega
  | succ f ih =>
    intro counter n h1 h2 hn hall
    simp only [uniqueLoop]
    by_cases hc : counter = n
    · subst hc
      rw [hn]
      simp
    · have hlt : counter < n := by omega
      have ht : fs (numberedName base ext counter) = true := hall counter (le_refl _) hlt
      rw [ht]
      simp only [if_true]
      exact ih (counter + 1) n (by omega) (by omega) hn (fun m hm1 hm2 => hall m (by omega) hm2)

/-- C8: if the candidate path does not exist the function returns it
unchanged; otherwise, for the smallest counter `n ≥ 1` whose numbered
candidate does not exist, it returns
`"<base> (<n>)<extension>"` with base and extension given by
`splitext` (and enough fuel for `n` loop iterations). -/
theorem c8_unique_path (fs : List Char → Bool) (p : List Char) (fuel n : ℕ) :
    (fs p = false → get_unique_file_name fs fuel p = some p) ∧
    (fs p = true → 1 ≤ n → n < 1 + fuel →
      fs (numberedName (splitext p).1 (splitext p).2 n) = false →
      (∀ m, m < n → 1 ≤ m → fs (numberedName (splitext p).1 (splitext p).2 m) = true) →
      get_unique_file_name fs fuel p =
        some (numberedName (splitext p).1 (splitext p).2 n)) := by
  constructor
  · intro h
    unfold get_unique_file_name
    rw [h]
    simp
  · intro hp h1 h2 hn hall
    unfold get_unique_file_name
    rw [hp]
    simp only [if_true]
    exact uniqueLoop_spec fs _ _ fuel 1 n h1 h2 hn (fun m hm1 hm2 => hall m hm2 hm1)

/-- Witness for C8 at the spec's example: with `a.mp3` and `a (1).mp3`
both existing, `a.mp3` resolves to `a (2).mp3`. -/
theorem c8_unique_path_witness :
    get_unique_file_name (fun q => q == "a.mp3".toList || q == "a (1).mp3".toList)
      2 "a.mp3".toList = some "a (2).mp3".toList := by
  have h := (c8_unique_path (fun q => q == "a.mp3".toList || q == "a (1).mp3".toList)
      "a.mp3".toList 2 2).2 (by decide) (by decide) (by decide) (by decide) (by decide)
  rw [h]
  decide

theorem numberedName_injective (base ext : List Char) :
    ∀ a b : ℕ, numberedName base ext a = numberedName base ext b → a = b := by
  intro a b hab
  unfold numberedName at hab
  have h1 : ' ' :: '(' :: (natRepr a ++ ')' :: ext) = ' ' :: '(' :: (natRepr b ++ ')' :: ext) :=
    List.append_cancel_left hab
  have h2 : natRepr a ++ ')' :: ext = natRepr b ++ ')' :: ext := by
    injection h1 with _ h1a
    injection h1a with _ h1b
  have hlen : (natRepr a).length = (natRepr b).length := by
    have := congrArg List.length h2
    simp only [List.length_append, List.length_cons] at this
    omega
  exact natRepr_injective (List.append_inj h2 hlen).1

/-- C10: when the existence predicate holds for only finitely many paths
(all of them in the list `L`), the loop terminates: some fuel yields a
result, the result does not exist according to the predicate, and any
larger fuel yields the same result. -/
theorem c10_termination (fs : List Char → Bool) (p : List Char) (L : List (List Char))
    (hL : ∀ q, fs q = true → q ∈ L) :
    ∃ (fuel : ℕ) (r : List Char), get_unique_file_name fs fuel p = some r ∧ fs r = false ∧
      ∀ fuel2, fuel ≤ fuel2 → get_unique_file_name fs fuel2 p = some r := by
  by_cases hp : fs p = true
  · have hex : ∃ n, 1 ≤ n ∧ fs (numberedName (splitext p).1 (splitext p).2 n) = false := by
      by_contra hno
      push_neg at hno
      have htrue : ∀ n : ℕ, 1 ≤ n → fs (numberedName (splitext p).1 (splitext p).2 n) = true := by
        intro n hn
        have hb := hno n hn
        cases hcase : fs (numberedName (splitext p).1 (splitext p).2 n) with
        | false => exact absurd hcase hb
        | true => rfl
      have hmem : ∀ i : Fin (L.length + 1),
          numberedName (splitext p).1 (splitext p).2 ((i : ℕ) + 1) ∈ L :=
        fun i => hL _ (htrue _ (by omega))
      have hfinj : Function.Injective
          (fun i : Fin (L.length + 1) =>
            numberedName (splitext p).1 (splitext p).2 ((i : ℕ) + 1)) := by
        intro i j hij
        have := numberedName_injective _ _ _ _ hij
        exact Fin.ext (by omega)
      have hsub : Finset.image
          (fun i : Fin (L.length + 1) =>
            numberedName (splitext p).1 (splitext p).2 ((i : ℕ) + 1)) Finset.univ ⊆
          L.toFinset := by
        intro x hx
        rw [Finset.mem_image] at hx
        obtain ⟨i, _, rfl⟩ := hx
        exact List.mem_toFinset.mpr (hmem i)
      have hc1 := Finset.card_le_card hsub
      rw [Finset.card_image_of_injective _ hfinj, Finset.card_univ, Fintype.card_fin] at hc1
      have hc2 := L.toFinset_card_le
      omega
    have hP := Nat.find_spec hex
    have hall : ∀ m, 1 ≤ m → m < Nat.find hex →
        fs (numberedName (splitext p).1 (splitext p).2 m) = true := by
      intro m h1 h2
      have hmin := Nat.find_min hex h2
      rw [not_and] at hmin
      have hb := hmin h1
      cases hcase : fs (numberedName (splitext p).1 (splitext p).2 m) with
      | false => exact absurd hcase hb
      | true => rfl
    refine ⟨Nat.find hex, numberedName (splitext p).1 (splitext p).2 (Nat.find hex),
      ?_, hP.2, ?_⟩
    · unfold get_unique_file_name
      rw [hp]
      simp only [if_true]
      exact uniqueLoop_spec fs _ _ (Nat.find hex) 1 (Nat.find hex) hP.1 (by omega) hP.2 hall
    · intro fuel2 hf2
      unfold get_unique_file_name
      rw [hp]
      simp only [if_true]
      exact uniqueLoop_spec fs _ _ fuel2 1 (Nat.find hex) hP.1 (by omega) hP.2 hall
  · have hpf : fs p = false := by rwa [Bool.not_eq_true] at hp
    refine ⟨0, p, ?_, hpf, ?_⟩
    · unfold get_unique_file_name
      rw [hpf]
      simp
    · intro fuel2 _
      unfold get_unique_file_name
      rw [hpf]
      simp

/-- Witness for C10 with the predicate true exactly on `b.mp3`. -/
theorem c10_termination_witness :
    ∃ (fuel : ℕ) (r : List Char),
      get_unique_file_name (fun q => q == "b.mp3".toList) fuel "b.mp3".toList = some r ∧
      (fun q => q == "b.mp3".toList) r = false ∧
      ∀ fuel2, fuel ≤ fuel2 →
        get_unique_file_name (fun q => q == "b.mp3".toList) fuel2 "b.mp3".toList = some r :=
  c10_termination _ _ ["b.mp3".toList] (by intro q h; simp_all)
